import Mathlib

/-!
Shallow embedding of `litevideo/input/dma.py` (classes `_Slot`, `_SlotArray`
and `DMA`): a cycle-accurate step function over the registered state of the
design, driven by per-cycle external inputs (the pixel stream endpoint, the
DRAM writer handshake, and CPU CSR bus writes).

Conventions of the embedding:
* machine integers are `Nat` with explicit `% 2 ^ w` at the points where the
  hardware register width truncates (address/counter increments, CSR writes);
* all FSM outputs (`reset_words`, `count_word`, `frame.ready`, `address_done`,
  `sink.valid`) are combinational functions of the current state and input;
  registered signals update simultaneously at the clock edge, which the step
  function models by computing every next-state field from the pre-edge state;
* `_Slot._status` and `_Slot._address` are `CSRStorage` registers with
  `write_from_dev=True`: the device-side write fires on `address_done`, and a
  same-cycle CPU bus write takes precedence (its sync statement is emitted
  after the device-write statement);
* addresses are in memory-word units, as stored (`alignment_bits` already
  stripped by the CSR); the write data is the low `bus_dw` bits of
  `Cat(pixels, pixels, ...)`, i.e. the `pixels` word itself.
-/

namespace LiteVideo

/-- FSM states of the `DMA` control FSM: `WAIT_SOF`, `TRANSFER_PIXELS`, `EOF`. -/
inductive FsmState where
  | waitSof
  | transferPixels
  | eof
deriving DecidableEq

/-- One buffer slot (`_Slot`): the 2-bit `_status` CSR storage
(EMPTY=0, LOADED=1, PENDING=2) and the word-address `_address` CSR storage. -/
structure Slot where
  status : Nat
  address : Nat
deriving DecidableEq

/-- Per-cycle external inputs of the `DMA` module: the pixel-stream endpoint
fields, the DRAM writer handshake, and CPU CSR bus writes (`none` = no write;
`statusWrite`/`addressWrite` carry a slot index and the written value). -/
structure Input where
  valid : Bool
  sof : Bool
  pixels : Nat
  sinkReady : Bool
  wdataValid : Bool
  statusWrite : Option (Nat × Nat)
  addressWrite : Option (Nat × Nat)
  frameSizeWrite : Option Nat
deriving DecidableEq

/-- Registered state of `DMA`: the slot CSR storages, the `_SlotArray`
register `current_slot`, the FSM state register, the address-generator
registers `current_address` and `mwords_remaining`, and the `_frame_size`
CSR storage. -/
structure DMAState where
  slots : List Slot
  currentSlot : Nat
  fsm : FsmState
  currentAddress : Nat
  mwordsRemaining : Nat
  frameSize : Nat
deriving DecidableEq

/-- Mux `Array(...)[current_slot]` over the slot list; an out-of-range index
reads the reset value (the `current_slot` register, `Signal(max=nslots)`,
never actually produces one). -/
def getSlot : List Slot → Nat → Slot
  | [], _ => { status := 0, address := 0 }
  | sl :: _, 0 => sl
  | _ :: rest, n + 1 => getSlot rest n

/-- Signal `slot.address_valid`: bit 0 of the status CSR
(`self._status.storage[0]`). -/
def addressValidOf (sl : Slot) : Bool := sl.status % 2 == 1

/-- Signal `_SlotArray.address`: the current slot's stored address. -/
def arrayAddress (s : DMAState) : Nat := (getSlot s.slots s.currentSlot).address

/-- Signal `_SlotArray.address_valid`: the current slot's `address_valid`. -/
def arrayAddressValid (s : DMAState) : Bool :=
  addressValidOf (getSlot s.slots s.currentSlot)

/-- Signal `address_reached`, fed combinationally from `current_address`
(`self._slot_array.address_reached.eq(current_address)`). -/
def addressReached (s : DMAState) : Nat := s.currentAddress

/-- Signal `last_word`: `mwords_remaining == 1`. -/
def lastWord (s : DMAState) : Prop := s.mwordsRemaining = 1

instance (s : DMAState) : Decidable (lastWord s) := by
  unfold lastWord; infer_instance

/-- Condition of the `WAIT_SOF -> TRANSFER_PIXELS` transition:
`address_valid & frame.sof & frame.valid`. -/
def startCond (s : DMAState) (i : Input) : Prop :=
  s.fsm = .waitSof ∧ arrayAddressValid s = true ∧ i.sof = true ∧ i.valid = true

instance (s : DMAState) (i : Input) : Decidable (startCond s i) := by
  unfold startCond; infer_instance

/-- Signal `count_word` (a word is committed): in `TRANSFER_PIXELS` with
`frame.valid` and the DMA writer sink ready; at that moment `sink.valid` is
also asserted, so exactly these cycles issue a write transaction. -/
def countWord (s : DMAState) (i : Input) : Prop :=
  s.fsm = .transferPixels ∧ i.valid = true ∧ i.sinkReady = true

instance (s : DMAState) (i : Input) : Decidable (countWord s i) := by
  unfold countWord; infer_instance

/-- Signal `address_done`: asserted combinationally in `EOF` once the DRAM
port write channel has drained (`~dram_port.wdata.valid`). -/
def addressDone (s : DMAState) (i : Input) : Prop :=
  s.fsm = .eof ∧ i.wdataValid = false

instance (s : DMAState) (i : Input) : Decidable (addressDone s i) := by
  unfold addressDone; infer_instance

/-- Signal `change_slot = ~address_valid | address_done`. -/
def changeSlot (s : DMAState) (i : Input) : Prop :=
  arrayAddressValid s = false ∨ addressDone s i

instance (s : DMAState) (i : Input) : Decidable (changeSlot s i) := by
  unfold changeSlot; infer_instance

/-- Signal `frame.ready` as driven by the FSM in each state. -/
def frameReady (s : DMAState) (i : Input) : Prop :=
  match s.fsm with
  | .waitSof => arrayAddressValid s = false ∨ i.sof = false
  | .transferPixels => i.sinkReady = true
  | .eof => False

instance (s : DMAState) (i : Input) : Decidable (frameReady s i) := by
  unfold frameReady; cases s.fsm <;> infer_instance

/-- The write transaction accepted by the DMA writer sink this cycle, if any:
address `current_address`, data the pixel word. -/
def writeIssued (s : DMAState) (i : Input) : Option (Nat × Nat) :=
  if countWord s i then some (s.currentAddress, i.pixels) else none

/-- The list of guarded assignments
`If(slot.address_valid, current_slot.eq(n))` in source index order, over the
sampled `address_valid` bits. -/
def enumValids : Nat → List Bool → List (Nat × Bool)
  | _, [] => []
  | n, v :: vs => (n, v) :: enumValids (n + 1) vs

/-- Arbitration sync block of `_SlotArray`: the guarded-assignment list is
emitted `reversed`, and under non-blocking assignment the statement written
last wins, so the fold processes the reversed list and the lowest valid index
ends up as the final value; with no valid slot the register keeps `cur`. -/
def arbitrate (valids : List Bool) (cur : Nat) : Nat :=
  ((enumValids 0 valids).reverse).foldl (fun acc p => if p.2 then p.1 else acc) cur

/-- Reference reading of the arbitration block: the first index carrying a
true bit, scanning upward from position `k`; `cur` when none is set. -/
def firstValidFrom : Nat → List Bool → Nat → Nat
  | _, [], cur => cur
  | n, v :: vs, cur => if v then n else firstValidFrom (n + 1) vs cur

/-- Next value of one `_Slot`'s CSR storages at the clock edge. The
device-side write (`dat_w=2` into `_status`, `dat_w=address_reached` into
`_address`, both gated by `we = address_done & (current_slot == n)`) fires on
completion; a same-cycle CPU bus write takes precedence. CPU writes truncate
to the storage width (2 bits for status, `aw` bits for the word address). -/
def slotNext (aw : Nat) (s : DMAState) (i : Input) (n : Nat) (sl : Slot) : Slot :=
  let devStatus := if addressDone s i ∧ s.currentSlot = n then 2 else sl.status
  let devAddress :=
    if addressDone s i ∧ s.currentSlot = n then addressReached s else sl.address
  { status :=
      match i.statusWrite with
      | some p => if p.1 = n then p.2 % 4 else devStatus
      | none => devStatus
    address :=
      match i.addressWrite with
      | some p => if p.1 = n then p.2 % 2 ^ aw else devAddress
      | none => devAddress }

/-- Map a slot-update function carrying the slot index over the slot list. -/
def mapSlots (f : Nat → Slot → Slot) : Nat → List Slot → List Slot
  | _, [] => []
  | n, sl :: rest => f n sl :: mapSlots f (n + 1) rest

/-- Next FSM state (`NextState` actions of the three `fsm.act` blocks). -/
def nextFsm (s : DMAState) (i : Input) : FsmState :=
  match s.fsm with
  | .waitSof =>
      if arrayAddressValid s = true ∧ i.sof = true ∧ i.valid = true then
        .transferPixels
      else .waitSof
  | .transferPixels =>
      if i.valid = true ∧ i.sinkReady = true ∧ lastWord s then .eof
      else .transferPixels
  | .eof => if i.wdataValid = false then .waitSof else .eof

/-- One clock edge of the `DMA` module with address width `aw`:
* the slot CSRs take the device-side completion write and/or the CPU write;
* `current_slot` re-arbitrates when `change_slot` is asserted, over the
  `address_valid` bits sampled this cycle;
* the FSM advances;
* in `WAIT_SOF` the address generator is continuously re-seeded
  (`reset_words`), otherwise a committed word (`count_word`) advances
  `current_address` and decrements `mwords_remaining`, both as `aw`-bit
  registers;
* `_frame_size` takes a CPU write if present. -/
def step (aw : Nat) (s : DMAState) (i : Input) : DMAState :=
  { slots := mapSlots (slotNext aw s i) 0 s.slots
    currentSlot :=
      if changeSlot s i then arbitrate (s.slots.map addressValidOf) s.currentSlot
      else s.currentSlot
    fsm := nextFsm s i
    currentAddress :=
      if s.fsm = .waitSof then arrayAddress s
      else if countWord s i then (s.currentAddress + 1) % 2 ^ aw
      else s.currentAddress
    mwordsRemaining :=
      if s.fsm = .waitSof then s.frameSize
      else if countWord s i then (s.mwordsRemaining + (2 ^ aw - 1)) % 2 ^ aw
      else s.mwordsRemaining
    frameSize :=
      match i.frameSizeWrite with
      | some v => v % 2 ^ aw
      | none => s.frameSize }

/-- Run the machine over a list of per-cycle inputs. -/
def run (aw : Nat) (s : DMAState) : List Input → DMAState
  | [] => s
  | i :: rest => run aw (step aw s i) rest

/-- The sequence of (address, data) write transactions issued along a run. -/
def writesAlong (aw : Nat) (s : DMAState) : List Input → List (Nat × Nat)
  | [] => []
  | i :: rest => (writeIssued s i).toList ++ writesAlong aw (step aw s i) rest

/-- The input list drives the machine from `s` to `EOF`, staying in
`TRANSFER_PIXELS` at every proper prefix: one complete frame transfer. -/
def completes (aw : Nat) (s : DMAState) (ins : List Input) : Prop :=
  (run aw s ins).fsm = .eof ∧
  ∀ k, k < ins.length → (run aw s (ins.take k)).fsm = .transferPixels

instance (aw : Nat) (s : DMAState) (ins : List Input) :
    Decidable (completes aw s ins) := by
  unfold completes; infer_instance

/-- Reset state of the design: all CSR storages and registers are zero, the
FSM starts in `WAIT_SOF`. -/
def initState (n : Nat) : DMAState :=
  { slots := List.replicate n { status := 0, address := 0 }
    currentSlot := 0
    fsm := .waitSof
    currentAddress := 0
    mwordsRemaining := 0
    frameSize := 0 }

/-- An idle input cycle: nothing valid, no CSR writes, transport drained. -/
def idleInput : Input :=
  { valid := false, sof := false, pixels := 0, sinkReady := false
    wdataValid := false, statusWrite := none, addressWrite := none
    frameSizeWrite := none }

/-! Concrete experiment inputs used by the scenario theorems. -/

/-- CPU cycle arming slot 0 at word address 4096 and setting frame size 4. -/
def armFourAt4096 : Input :=
  { idleInput with statusWrite := some (0, 1), addressWrite := some (0, 4096)
                   frameSizeWrite := some 4 }

/-- Stream cycle presenting word A (= 10) with the start-of-frame flag;
write transport ready. -/
def sofWordA : Input :=
  { idleInput with valid := true, sof := true, pixels := 10, sinkReady := true }

/-- Plain data word with the transport ready. -/
def dataWord (d : Nat) : Input :=
  { idleInput with valid := true, pixels := d, sinkReady := true }

/-- Spec section 8 scenario: arm slot 0 (base 4096, frame size 4), feed the
words A,B,C,D (10..13) and a drained cycle. The start-of-frame word is held
one extra cycle because `frame.ready` is deasserted in `WAIT_SOF` while
`address_valid & sof`. -/
def scenarioInputs : List Input :=
  [armFourAt4096, sofWordA, sofWordA, dataWord 11, dataWord 12, dataWord 13,
   idleInput]

/-- The machine state of the scenario run (3 slots, 16-bit word addresses). -/
def scenarioFinal : DMAState := run 16 (initState 3) scenarioInputs

/-- State after arming slot 0 and starting a transfer, then disarming it
mid-transfer (consumer writes status 0 while `TRANSFER_PIXELS` is active). -/
def disarmedMidTransfer : DMAState :=
  run 16 (initState 3)
    [armFourAt4096, sofWordA, { sofWordA with statusWrite := some (0, 0) }]

/-- CPU cycle arming slot 0 at word address 64 with `_frame_size` left at its
reset value 0. -/
def armZeroSize : Input :=
  { idleInput with statusWrite := some (0, 1), addressWrite := some (0, 64) }

/-- State in `TRANSFER_PIXELS` with `mwords_remaining = 0`, reached by
starting a transfer while `_frame_size` is 0. -/
def zeroSizeTransfer : DMAState := run 16 (initState 1) [armZeroSize, sofWordA]

/-- CPU cycle arming slot 0 at word address 1 (for the 2-bit-address runs). -/
def armTiny : Input :=
  { idleInput with statusWrite := some (0, 1), addressWrite := some (0, 1) }

/-- One-slot machine with slot 0 armed at address 1 and `_frame_size` 0,
word addresses 2 bits wide. -/
def tinyArmed : DMAState := run 2 (initState 1) [armTiny]

/-- The tiny machine one cycle later, in `TRANSFER_PIXELS` with
`mwords_remaining` seeded to 0. -/
def tinyTransfer : DMAState := step 2 tinyArmed sofWordA

/-- Four committed-word cycles. -/
def fourCommits : List Input :=
  [dataWord 11, dataWord 12, dataWord 13, dataWord 14]

/-- Arbitration example state: slots 0 and 2 Loaded, slot 1 Empty, the
`current_slot` register pointing at the (invalid) slot 1. -/
def c2State : DMAState :=
  { slots := [{ status := 1, address := 4 }, { status := 0, address := 0 },
              { status := 1, address := 8 }]
    currentSlot := 1
    fsm := .waitSof
    currentAddress := 0
    mwordsRemaining := 0
    frameSize := 0 }

/-- A machine sitting in `EOF` with slot 0 Loaded as the current slot and the
address generator one past the last written word. -/
def eofState : DMAState :=
  { slots := [{ status := 1, address := 4096 }]
    currentSlot := 0
    fsm := .eof
    currentAddress := 4100
    mwordsRemaining := 0
    frameSize := 4 }

/-- A one-slot machine in `WAIT_SOF` with slot 0 armed and frame size 4. -/
def c4Start : DMAState :=
  { slots := [{ status := 1, address := 64 }]
    currentSlot := 0
    fsm := .waitSof
    currentAddress := 0
    mwordsRemaining := 0
    frameSize := 4 }

/-- The 3-slot machine right after the arming cycle of the scenario. -/
def armedBase : DMAState := run 16 (initState 3) [armFourAt4096]

/-- A start-of-frame cycle followed by plain data words (no slot armed). -/
def c8Inputs : List Input := [sofWordA, dataWord 11, dataWord 12]

/-- Arm, then start a frame: inputs of the mid-transfer witness run. -/
def c1Inputs : List Input := [armFourAt4096, sofWordA, sofWordA]

/-- A full four-word frame fed to an already-armed machine. -/
def c4Inputs : List Input :=
  [sofWordA, sofWordA, dataWord 11, dataWord 12, dataWord 13]

/-- The transfer segment of the scenario: the held start-of-frame word and
the remaining three data words. -/
def c7Inputs : List Input := [sofWordA, dataWord 11, dataWord 12, dataWord 13]

/-! Helper lemmas about the step function and the arbitration fold. -/

theorem getSlot_mapSlots (f : Nat → Slot → Slot) :
    ∀ (l : List Slot) (k j : Nat),
      getSlot (mapSlots f k l) j =
        if j < l.length then f (k + j) (getSlot l j)
        else { status := 0, address := 0 } := by
  intro l
  induction l with
  | nil => intro k j; simp [mapSlots, getSlot]
  | cons sl rest ih =>
    intro k j
    cases j with
    | zero => simp [mapSlots, getSlot]
    | succ j =>
      show getSlot (mapSlots f (k + 1) rest) j = _
      rw [ih (k + 1) j]
      by_cases h : j < rest.length
      · rw [if_pos h, if_pos (by simp; omega)]
        have hkj : k + 1 + j = k + (j + 1) := by omega
        rw [hkj]
        rfl
      · rw [if_neg h, if_neg (by simp; omega)]

theorem step_getSlot (aw : Nat) (s : DMAState) (i : Input) (j : Nat) :
    getSlot (step aw s i).slots j =
      if j < s.slots.length then slotNext aw s i j (getSlot s.slots j)
      else { status := 0, address := 0 } := by
  show getSlot (mapSlots (slotNext aw s i) 0 s.slots) j = _
  rw [getSlot_mapSlots]
  simp

theorem length_mapSlots (f : Nat → Slot → Slot) :
    ∀ (l : List Slot) (k : Nat), (mapSlots f k l).length = l.length := by
  intro l
  induction l with
  | nil => intro k; rfl
  | cons sl rest ih => intro k; simp [mapSlots, ih]

theorem step_slots_length (aw : Nat) (s : DMAState) (i : Input) :
    (step aw s i).slots.length = s.slots.length := by
  show (mapSlots (slotNext aw s i) 0 s.slots).length = _
  rw [length_mapSlots]

theorem run_append (aw : Nat) (l₁ l₂ : List Input) :
    ∀ s : DMAState, run aw s (l₁ ++ l₂) = run aw (run aw s l₁) l₂ := by
  induction l₁ with
  | nil => intro s; rfl
  | cons i rest ih =>
    intro s
    show run aw (step aw s i) (rest ++ l₂) = run aw (run aw (step aw s i) rest) l₂
    exact ih (step aw s i)

theorem take_succ_getD : ∀ (l : List Input) (k : Nat), k < l.length →
    l.take (k + 1) = l.take k ++ [l.getD k idleInput] := by
  intro l
  induction l with
  | nil => intro k h; simp at h
  | cons a as ih =>
    intro k h
    cases k with
    | zero => rfl
    | succ k =>
      have h' : k < as.length := by simpa using h
      show a :: as.take (k + 1) = a :: as.take k ++ [(a :: as).getD (k + 1) idleInput]
      have hd : (a :: as).getD (k + 1) idleInput = as.getD k idleInput := rfl
      rw [hd, ih k h', List.cons_append]

theorem run_take_succ (aw : Nat) (s : DMAState) (ins : List Input) (k : Nat)
    (h : k < ins.length) :
    run aw s (ins.take (k + 1)) =
      step aw (run aw s (ins.take k)) (ins.getD k idleInput) := by
  rw [take_succ_getD ins k h, run_append]
  rfl

theorem arb_aux : ∀ (vs : List Bool) (k cur : Nat),
    ((enumValids k vs).reverse).foldl (fun acc p => if p.2 then p.1 else acc) cur
      = firstValidFrom k vs cur := by
  intro vs
  induction vs with
  | nil => intro k cur; rfl
  | cons v rest ih =>
    intro k cur
    show (((k, v) :: enumValids (k + 1) rest).reverse).foldl
        (fun acc p => if p.2 then p.1 else acc) cur = _
    rw [List.reverse_cons, List.foldl_append]
    rw [ih (k + 1) cur]
    rfl

theorem arbitrate_eq (vs : List Bool) (cur : Nat) :
    arbitrate vs cur = firstValidFrom 0 vs cur :=
  arb_aux vs 0 cur

theorem firstValid_least : ∀ (slots : List Slot) (k cur j : Nat),
    j < slots.length → addressValidOf (getSlot slots j) = true →
    (∀ m, m < j → addressValidOf (getSlot slots m) = false) →
    firstValidFrom k (slots.map addressValidOf) cur = k + j := by
  intro slots
  induction slots with
  | nil => intro k cur j hj; intro _ _; simp at hj
  | cons sl rest ih =>
    intro k cur j hj hval hmin
    cases j with
    | zero =>
      have hv : addressValidOf sl = true := hval
      show firstValidFrom k (addressValidOf sl :: rest.map addressValidOf) cur = k
      simp [firstValidFrom, hv]
    | succ j =>
      have h0 : addressValidOf sl = false := hmin 0 (Nat.zero_lt_succ j)
      have hstep : firstValidFrom k ((sl :: rest).map addressValidOf) cur
          = firstValidFrom (k + 1) (rest.map addressValidOf) cur := by
        show firstValidFrom k (addressValidOf sl :: rest.map addressValidOf) cur = _
        simp [firstValidFrom, h0]
      rw [hstep, ih (k + 1) cur j (by simpa using hj) hval
        (fun m hm => hmin (m + 1) (by omega))]
      omega

theorem firstValid_cases : ∀ (vs : List Bool) (k cur : Nat),
    firstValidFrom k vs cur = cur ∨
    ∃ m, m < vs.length ∧ firstValidFrom k vs cur = k + m ∧
      vs.getD m false = true := by
  intro vs
  induction vs with
  | nil => intro k cur; left; rfl
  | cons v rest ih =>
    intro k cur
    cases hv : v with
    | true =>
      right
      exact ⟨0, by simp, by simp [firstValidFrom], by simp [List.getD]⟩
    | false =>
      have hstep : firstValidFrom k (false :: rest) cur
          = firstValidFrom (k + 1) rest cur := by
        simp [firstValidFrom]
      rcases ih (k + 1) cur with h | ⟨m, hm, heq, hg⟩
      · left; rw [hstep]; exact h
      · right
        refine ⟨m + 1, by simpa using hm, ?_, by simpa [List.getD] using hg⟩
        rw [hstep, heq]
        omega

theorem step_fsm_def (aw : Nat) (s : DMAState) (i : Input) :
    (step aw s i).fsm = nextFsm s i := rfl

theorem step_cur_def (aw : Nat) (s : DMAState) (i : Input) :
    (step aw s i).currentSlot =
      if changeSlot s i then arbitrate (s.slots.map addressValidOf) s.currentSlot
      else s.currentSlot := rfl

theorem step_ca_def (aw : Nat) (s : DMAState) (i : Input) :
    (step aw s i).currentAddress =
      if s.fsm = .waitSof then arrayAddress s
      else if countWord s i then (s.currentAddress + 1) % 2 ^ aw
      else s.currentAddress := rfl

theorem step_mw_def (aw : Nat) (s : DMAState) (i : Input) :
    (step aw s i).mwordsRemaining =
      if s.fsm = .waitSof then s.frameSize
      else if countWord s i then (s.mwordsRemaining + (2 ^ aw - 1)) % 2 ^ aw
      else s.mwordsRemaining := rfl

theorem getSlot_ge_length :
    ∀ (l : List Slot) (n : Nat), l.length ≤ n →
      getSlot l n = { status := 0, address := 0 } := by
  intro l
  induction l with
  | nil => intro n _; cases n <;> rfl
  | cons sl rest ih =>
    intro n hn
    cases n with
    | zero => simp at hn
    | succ n => exact ih n (by simpa using hn)

theorem getSlot_initState (n m : Nat) :
    getSlot (initState n).slots m = { status := 0, address := 0 } := by
  show getSlot (List.replicate n { status := 0, address := 0 }) m = _
  induction n generalizing m with
  | zero => cases m <;> rfl
  | succ n ih =>
    cases m with
    | zero => rfl
    | succ m => exact ih m

theorem arrayAddressValid_currentSlot_lt (s : DMAState)
    (h : arrayAddressValid s = true) : s.currentSlot < s.slots.length := by
  by_contra hge
  rw [arrayAddressValid, getSlot_ge_length s.slots s.currentSlot (by omega)] at h
  exact absurd h (by decide)

/-! Claim theorems. -/

/-- C2: whenever arbitration runs (`change_slot` asserted), the slot selected
as current is the lowest-indexed slot whose status is Loaded (given the
documented usage constraint that status values stay in 0..2, Loaded coincides
with the sampled `address_valid` bit); in particular with slots 0 and 2
Loaded and slot 1 Empty arbitration selects slot 0, and with only slot 2
Loaded it selects slot 2. -/
theorem C2_arbitration_lowest_loaded (aw : Nat) (s : DMAState) (i : Input)
    (j : Nat) (hch : changeSlot s i)
    (hall : ∀ m, m < s.slots.length → (getSlot s.slots m).status ≤ 2)
    (hj : j < s.slots.length)
    (hL : (getSlot s.slots j).status = 1)
    (hmin : ∀ m, m < j → (getSlot s.slots m).status ≠ 1) :
    (step aw s i).currentSlot = j ∧
    (∀ c, arbitrate [true, false, true] c = 0) ∧
    (∀ c, arbitrate [false, false, true] c = 2) := by
  refine ⟨?_, fun c => rfl, fun c => rfl⟩
  rw [step_cur_def, if_pos hch, arbitrate_eq]
  have hv : addressValidOf (getSlot s.slots j) = true := by
    simp [addressValidOf, hL]
  have hm : ∀ m, m < j → addressValidOf (getSlot s.slots m) = false := by
    intro m hmj
    have h2 := hall m (by omega)
    have h1 := hmin m hmj
    have hne : (getSlot s.slots m).status % 2 ≠ 1 := by omega
    simp [addressValidOf, hne]
  have := firstValid_least s.slots 0 s.currentSlot j hj hv hm
  simpa using this

/-- C2 witness: a concrete arbitration cycle with slots 0 and 2 Loaded and
slot 1 Empty selects slot 0. -/
theorem C2_witness : (step 16 c2State idleInput).currentSlot = 0 :=
  (C2_arbitration_lowest_loaded 16 c2State idleInput 0 (by decide) (by decide)
    (by decide) (by decide) (by decide)).1

/-- C5: a slot's status becomes Pending (2) at a clock edge, absent a CPU
status write that cycle, only when the FSM is in `EOF` and the DRAM write
channel reports drained (`wdata.valid` low): Pending is set only after the
transport drained condition holds. -/
theorem C5_drain_before_pending (aw : Nat) (s : DMAState) (i : Input) (j : Nat)
    (hnc : i.statusWrite = none)
    (hold : (getSlot s.slots j).status ≠ 2)
    (hnew : (getSlot (step aw s i).slots j).status = 2) :
    i.wdataValid = false ∧ s.fsm = .eof := by
  rw [step_getSlot] at hnew
  by_cases hj : j < s.slots.length
  · rw [if_pos hj] at hnew
    simp only [slotNext, hnc] at hnew
    by_cases hd : addressDone s i ∧ s.currentSlot = j
    · exact ⟨hd.1.2, hd.1.1⟩
    · rw [if_neg hd] at hnew
      exact absurd hnew hold
  · rw [if_neg hj] at hnew
    exact absurd hnew (by decide)

/-- C5 witness: from a concrete `EOF` state with the transport drained, slot
0 goes Pending and the drain condition indeed held. -/
theorem C5_witness : idleInput.wdataValid = false ∧ eofState.fsm = .eof :=
  C5_drain_before_pending 16 eofState idleInput 0 rfl (by decide) (by decide)

/-- Completion effect of `address_done` on the slot CSRs: with no CPU write
that cycle, the current slot takes status 2 and the published
`address_reached`, every other slot keeps both fields. -/
theorem completion_update (aw : Nat) (s : DMAState) (i : Input)
    (hfsm : s.fsm = .eof) (hdr : i.wdataValid = false)
    (hnc : i.statusWrite = none) (hna : i.addressWrite = none) :
    ∀ j, j < s.slots.length →
      getSlot (step aw s i).slots j =
        if j = s.currentSlot then { status := 2, address := addressReached s }
        else getSlot s.slots j := by
  intro j hj
  rw [step_getSlot, if_pos hj]
  have hd : addressDone s i := ⟨hfsm, hdr⟩
  simp only [slotNext, hnc, hna]
  by_cases hcur : j = s.currentSlot
  · have hc : addressDone s i ∧ s.currentSlot = j := ⟨hd, hcur.symm⟩
    rw [if_pos hcur, if_pos hc, if_pos hc]
  · have hc : ¬ (addressDone s i ∧ s.currentSlot = j) := fun h => hcur h.2.symm
    rw [if_neg hcur, if_neg hc, if_neg hc]

/-- C6: on completion (`address_done` in `EOF` with the transport drained,
no CPU write that cycle), exactly one slot, the current one, transitions to
Pending and receives the published `address_reached`; the status and stored
address of every other slot are unchanged. -/
theorem C6_completion_exactly_current (aw : Nat) (s : DMAState) (i : Input)
    (hfsm : s.fsm = .eof) (hdr : i.wdataValid = false)
    (hnc : i.statusWrite = none) (hna : i.addressWrite = none) :
    ∀ j, j < s.slots.length →
      getSlot (step aw s i).slots j =
        if j = s.currentSlot then { status := 2, address := addressReached s }
        else getSlot s.slots j :=
  completion_update aw s i hfsm hdr hnc hna

/-- C6 witness: concrete completion cycle publishing into slot 0. -/
theorem C6_witness :
    getSlot (step 16 eofState idleInput).slots 0 =
      if 0 = eofState.currentSlot
      then { status := 2, address := addressReached eofState }
      else getSlot eofState.slots 0 :=
  C6_completion_exactly_current 16 eofState idleInput rfl rfl rfl rfl 0
    (by decide)

/-- C10: the completion write replaces the slot's whole 2-bit status with the
exact value 2 (Pending set, Loaded bit cleared); a status-2 slot is not
`address_valid`; arbitration never assigns a slot whose sampled valid bit is
clear (it can only keep the old register value); and no transfer can start
while the current slot's status is 2. -/
theorem C10_completion_status_exactly_two (aw : Nat) (s : DMAState) (i : Input)
    (hfsm : s.fsm = .eof) (hdr : i.wdataValid = false)
    (hnc : i.statusWrite = none)
    (hcur : s.currentSlot < s.slots.length) :
    (getSlot (step aw s i).slots s.currentSlot).status = 2 ∧
    (∀ sl : Slot, sl.status = 2 → addressValidOf sl = false) ∧
    (∀ (vs : List Bool) (c j : Nat), vs.getD j false = false →
      arbitrate vs c = j → j = c) ∧
    (∀ (s' : DMAState) (i' : Input),
      (getSlot s'.slots s'.currentSlot).status = 2 → ¬ startCond s' i') := by
  refine ⟨?_, ?_, ?_, ?_⟩
  · rw [step_getSlot, if_pos hcur]
    simp [slotNext, hnc, addressDone, hfsm, hdr]
  · intro sl h
    simp [addressValidOf, h]
  · intro vs c j hfalse harb
    rw [arbitrate_eq] at harb
    rcases firstValid_cases vs 0 c with h | ⟨m, hm, heq, hg⟩
    · rw [harb] at h; exact h.symm ▸ h
    · rw [harb] at heq
      have hmj : m = j := by omega
      rw [hmj] at hg
      exact absurd hg (by rw [hfalse]; decide)
  · rintro s' i' h2 ⟨_, hav, _, _⟩
    rw [arrayAddressValid, addressValidOf, h2] at hav
    exact absurd hav (by decide)

/-- C10 witness: concrete completion sets slot 0's status to exactly 2. -/
theorem C10_witness :
    (getSlot (step 16 eofState idleInput).slots eofState.currentSlot).status = 2 :=
  (C10_completion_status_exactly_two 16 eofState idleInput rfl rfl rfl
    (by decide)).1

/-- C9 as amended: at a cycle with no CPU slot-CSR writes, the producer side
changes a slot only on completion, and then it sets the status to 2 and
overwrites the slot's address register with `address_reached` (the slot's
consumer-set address field is NOT preserved: `_address` doubles as the
`address_reached` readback); the producer never sets the Loaded bit. -/
theorem C9_producer_side_effects (aw : Nat) (s : DMAState) (i : Input)
    (hnc : i.statusWrite = none) (hna : i.addressWrite = none) :
    ∀ j, j < s.slots.length →
      (getSlot (step aw s i).slots j = getSlot s.slots j ∨
        (j = s.currentSlot ∧ s.fsm = .eof ∧ i.wdataValid = false ∧
          getSlot (step aw s i).slots j =
            { status := 2, address := addressReached s })) ∧
      (addressValidOf (getSlot (step aw s i).slots j) = true →
        addressValidOf (getSlot s.slots j) = true) := by
  intro j hj
  have hstep : getSlot (step aw s i).slots j =
      if addressDone s i ∧ s.currentSlot = j
      then { status := 2, address := addressReached s }
      else getSlot s.slots j := by
    rw [step_getSlot, if_pos hj]
    simp only [slotNext, hnc, hna]
    by_cases hc : addressDone s i ∧ s.currentSlot = j
    · rw [if_pos hc, if_pos hc, if_pos hc]
    · rw [if_neg hc, if_neg hc, if_neg hc]
  by_cases hc : addressDone s i ∧ s.currentSlot = j
  · rw [hstep, if_pos hc]
    constructor
    · exact Or.inr ⟨hc.2.symm, hc.1.1, hc.1.2, rfl⟩
    · intro h
      simp [addressValidOf] at h
  · rw [hstep, if_neg hc]
    exact ⟨Or.inl rfl, fun h => h⟩

/-- C9 witness: a producer-only completion cycle falls in the completion
branch for slot 0. -/
theorem C9_witness :
    getSlot (step 16 eofState idleInput).slots 0 = getSlot eofState.slots 0 ∨
      (0 = eofState.currentSlot ∧ eofState.fsm = .eof ∧
        idleInput.wdataValid = false ∧
        getSlot (step 16 eofState idleInput).slots 0 =
          { status := 2, address := addressReached eofState }) :=
  (C9_producer_side_effects 16 eofState idleInput rfl rfl 0 (by decide)).1

theorem slotNext_status (aw : Nat) (s : DMAState) (i : Input) (n : Nat)
    (sl : Slot) :
    (slotNext aw s i n sl).status =
      match i.statusWrite with
      | some p =>
          if p.1 = n then p.2 % 4
          else if addressDone s i ∧ s.currentSlot = n then 2 else sl.status
      | none =>
          if addressDone s i ∧ s.currentSlot = n then 2 else sl.status := rfl

theorem loaded_inv_step (aw : Nat) (s : DMAState) (i : Input)
    (hall : ∀ m, (getSlot s.slots m).status ≤ 2)
    (hcur : s.fsm = .transferPixels → (getSlot s.slots s.currentSlot).status = 1)
    (hw : ∀ j v, i.statusWrite = some (j, v) → v ≤ 2)
    (hq : (s.fsm = .transferPixels ∨ startCond s i) → i.statusWrite = none) :
    (∀ m, (getSlot (step aw s i).slots m).status ≤ 2) ∧
    ((step aw s i).fsm = .transferPixels →
      (getSlot (step aw s i).slots (step aw s i).currentSlot).status = 1) := by
  constructor
  · intro m
    rw [step_getSlot]
    by_cases hm : m < s.slots.length
    · rw [if_pos hm, slotNext_status]
      cases hsw : i.statusWrite with
      | none =>
        by_cases hc : addressDone s i ∧ s.currentSlot = m
        · simp [hc]
        · simp only [if_neg hc]
          exact hall m
      | some p =>
        by_cases hp : p.1 = m
        · simp only [if_pos hp]
          have := hw p.1 p.2 (by rw [hsw])
          omega
        · simp only [if_neg hp]
          by_cases hc : addressDone s i ∧ s.currentSlot = m
          · simp [hc]
          · simp only [if_neg hc]
            exact hall m
    · rw [if_neg hm]
      decide
  · intro hT
    rw [step_fsm_def] at hT
    cases hsf : s.fsm with
    | waitSof =>
      simp only [nextFsm, hsf] at hT
      by_cases hcond : arrayAddressValid s = true ∧ i.sof = true ∧ i.valid = true
      · have hst : startCond s i := ⟨hsf, hcond.1, hcond.2.1, hcond.2.2⟩
        have hsw := hq (Or.inr hst)
        have hav := hcond.1
        have hlen := arrayAddressValid_currentSlot_lt s hav
        have hcs : (step aw s i).currentSlot = s.currentSlot := by
          rw [step_cur_def, if_neg]
          rintro (h | h)
          · rw [hav] at h
            exact absurd h (by decide)
          · have he := h.1
            rw [hsf] at he
            exact absurd he (by decide)
        rw [hcs, step_getSlot, if_pos hlen, slotNext_status]
        simp only [hsw]
        have hnd : ¬ (addressDone s i ∧ True) := by
          rintro ⟨⟨he, _⟩, _⟩
          rw [hsf] at he
          exact absurd he (by decide)
        rw [if_neg hnd]
        have h2 := hall s.currentSlot
        have h1 : (getSlot s.slots s.currentSlot).status % 2 = 1 := by
          have hv := hav
          simp [arrayAddressValid, addressValidOf] at hv
          exact hv
        omega
      · rw [if_neg hcond] at hT
        exact absurd hT (by decide)
    | transferPixels =>
      have hsw := hq (Or.inl hsf)
      have h1 := hcur hsf
      have hav : arrayAddressValid s = true := by
        simp [arrayAddressValid, addressValidOf, h1]
      have hlen := arrayAddressValid_currentSlot_lt s hav
      have hcs : (step aw s i).currentSlot = s.currentSlot := by
        rw [step_cur_def, if_neg]
        rintro (h | h)
        · rw [hav] at h
          exact absurd h (by decide)
        · have he := h.1
          rw [hsf] at he
          exact absurd he (by decide)
      rw [hcs, step_getSlot, if_pos hlen, slotNext_status]
      simp only [hsw]
      have hnd : ¬ (addressDone s i ∧ True) := by
        rintro ⟨⟨he, _⟩, _⟩
        rw [hsf] at he
        exact absurd he (by decide)
      rw [if_neg hnd]
      exact h1
    | eof =>
      simp only [nextFsm, hsf] at hT
      by_cases hdv : i.wdataValid = false
      · rw [if_pos hdv] at hT
        exact absurd hT (by decide)
      · rw [if_neg hdv] at hT
        exact absurd hT (by decide)

/-- C1 as amended: along every execution from reset in which the consumer
only writes in-range status values (0..2) and issues no status write while a
transfer is active or starting, every committed write finds the current
slot's status Loaded. (The unamended claim, quantifying over arbitrary
arm/disarm sequences, fails: a mid-transfer disarm is not re-checked.) -/
theorem C1_writes_only_into_loaded (aw n : Nat) (ins : List Input)
    (hw : ∀ k, k < ins.length →
        (((ins.getD k idleInput).statusWrite.getD (0, 0)).2 ≤ 2))
    (hq : ∀ k, k < ins.length →
        ((run aw (initState n) (ins.take k)).fsm = .transferPixels ∨
          startCond (run aw (initState n) (ins.take k)) (ins.getD k idleInput)) →
        (ins.getD k idleInput).statusWrite = none) :
    ∀ k, k < ins.length →
      countWord (run aw (initState n) (ins.take k)) (ins.getD k idleInput) →
      (getSlot (run aw (initState n) (ins.take k)).slots
        (run aw (initState n) (ins.take k)).currentSlot).status = 1 := by
  have inv : ∀ k, k ≤ ins.length →
      (∀ m, (getSlot (run aw (initState n) (ins.take k)).slots m).status ≤ 2) ∧
      ((run aw (initState n) (ins.take k)).fsm = .transferPixels →
        (getSlot (run aw (initState n) (ins.take k)).slots
          (run aw (initState n) (ins.take k)).currentSlot).status = 1) := by
    intro k
    induction k with
    | zero =>
      intro _
      constructor
      · intro m
        rw [List.take_zero]
        show (getSlot (initState n).slots m).status ≤ 2
        rw [getSlot_initState]
        decide
      · intro h
        rw [List.take_zero] at h
        exact FsmState.noConfusion
          (show FsmState.waitSof = FsmState.transferPixels from h)
    | succ k ih =>
      intro hk1
      have hk : k < ins.length := by omega
      rw [run_take_succ aw _ ins k hk]
      refine loaded_inv_step aw _ _ (ih (by omega)).1 (ih (by omega)).2
        (fun j v hs => ?_) (fun hc => hq k hk hc)
      have := hw k hk
      rw [hs] at this
      simpa using this
  intro k hk hcw
  exact (inv k (by omega)).2 hcw.1

/-- C1 witness: in the scenario prefix (arm, then start a frame) the first
committed write finds slot 0 Loaded. -/
theorem C1_witness :
    (getSlot (run 16 (initState 3) (c1Inputs.take 2)).slots
      (run 16 (initState 3) (c1Inputs.take 2)).currentSlot).status = 1 :=
  C1_writes_only_into_loaded 16 3 c1Inputs (by decide) (by decide) 2 (by decide)
    (by decide)

/-- C1 counterexample: arm slot 0, start a transfer, then disarm slot 0 while
the transfer is active; on the next cycle the engine still issues a write
although the current slot's status is 0 (not Loaded). -/
theorem C1_counterexample :
    writeIssued disarmedMidTransfer (dataWord 12) = some (4097, 12) ∧
    (getSlot disarmedMidTransfer.slots disarmedMidTransfer.currentSlot).status
      = 0 ∧
    disarmedMidTransfer.fsm = .transferPixels := by decide

theorem writeIssued_none (s : DMAState) (i : Input)
    (h : s.fsm ≠ .transferPixels) : writeIssued s i = none := by
  unfold writeIssued
  rw [if_neg (fun hc => h hc.1)]

/-- C8: if no slot is Loaded when a start-of-frame arrives in `WAIT_SOF`,
then for that whole frame (the start-of-frame cycle and every following
cycle without a new start-of-frame marker) the FSM stays in `WAIT_SOF`,
`frame.ready` is asserted every cycle (all pixel words are consumed), and no
write is ever issued. -/
theorem C8_frame_dropped_without_slot (aw : Nat) (s : DMAState)
    (ins : List Input) (hfsm : s.fsm = .waitSof)
    (hnl : ∀ j, j < s.slots.length → addressValidOf (getSlot s.slots j) = false)
    (hsof : ∀ k, k < ins.length → 0 < k → (ins.getD k idleInput).sof = false) :
    ∀ k, k ≤ ins.length →
      (run aw s (ins.take k)).fsm = .waitSof ∧
      (k < ins.length →
        frameReady (run aw s (ins.take k)) (ins.getD k idleInput) ∧
        writeIssued (run aw s (ins.take k)) (ins.getD k idleInput) = none) := by
  have hav : arrayAddressValid s = false := by
    by_cases hc : s.currentSlot < s.slots.length
    · exact hnl s.currentSlot hc
    · rw [arrayAddressValid, getSlot_ge_length s.slots s.currentSlot (by omega)]
      rfl
  intro k
  induction k with
  | zero =>
    intro _
    rw [List.take_zero]
    refine ⟨hfsm, fun _ => ⟨?_, ?_⟩⟩
    · show frameReady s (ins.getD 0 idleInput)
      simp [frameReady, hfsm, hav]
    · exact writeIssued_none s _ (by rw [hfsm]; intro hh; cases hh)
  | succ k ih =>
    intro hk1
    have hk : k < ins.length := by omega
    have ihk := ih (by omega)
    have hstep := run_take_succ aw s ins k hk
    have hfsmk := ihk.1
    have hfsm1 : (run aw s (ins.take (k + 1))).fsm = .waitSof := by
      rw [hstep, step_fsm_def]
      simp only [nextFsm, hfsmk]
      rw [if_neg ?hc]
      case hc =>
        rintro ⟨havk, hsofk, _⟩
        rcases Nat.eq_zero_or_pos k with h0 | hpos
        · subst h0
          have hs : arrayAddressValid s = true := havk
          rw [hav] at hs
          exact absurd hs (by decide)
        · rw [hsof k hk hpos] at hsofk
          exact absurd hsofk (by decide)
    refine ⟨hfsm1, fun hlen => ⟨?_, ?_⟩⟩
    · have hsk := hsof (k + 1) hlen (by omega)
      have hfr : frameReady (run aw s (ins.take (k + 1))) (ins.getD (k + 1) idleInput)
          ↔ (arrayAddressValid (run aw s (ins.take (k + 1))) = false ∨
            (ins.getD (k + 1) idleInput).sof = false) := by
        simp [frameReady, hfsm1]
      exact hfr.mpr (Or.inr hsk)
    · refine writeIssued_none _ _ (fun hh => ?_)
      rw [hfsm1] at hh
      exact absurd hh (by decide)

/-- C8 witness: from reset with no slot armed, a frame (start-of-frame plus
two data words) leaves the FSM in `WAIT_SOF`. -/
theorem C8_witness : (run 16 (initState 2) (c8Inputs.take 3)).fsm = .waitSof :=
  (C8_frame_dropped_without_slot 16 (initState 2) c8Inputs rfl (by decide)
    (by decide) 3 (by decide)).1

theorem step_fs_def (aw : Nat) (s : DMAState) (i : Input) :
    (step aw s i).frameSize =
      match i.frameSizeWrite with
      | some v => v % 2 ^ aw
      | none => s.frameSize := rfl

theorem size_inv_step (aw : Nat) (s : DMAState) (i : Input)
    (h1 : 0 < s.frameSize) (h2 : s.frameSize < 2 ^ aw)
    (h3 : s.fsm = .transferPixels →
      0 < s.mwordsRemaining ∧ s.mwordsRemaining < 2 ^ aw)
    (hi : ∀ v, i.frameSizeWrite = some v → 0 < v % 2 ^ aw) :
    0 < (step aw s i).frameSize ∧ (step aw s i).frameSize < 2 ^ aw ∧
    ((step aw s i).fsm = .transferPixels →
      0 < (step aw s i).mwordsRemaining ∧
      (step aw s i).mwordsRemaining < 2 ^ aw) := by
  have hp : 0 < 2 ^ aw := pow_pos (by norm_num) aw
  have hfs : 0 < (step aw s i).frameSize ∧ (step aw s i).frameSize < 2 ^ aw := by
    cases hfw : i.frameSizeWrite with
    | some v =>
      rw [step_fs_def]
      simp only [hfw]
      exact ⟨hi v hfw, Nat.mod_lt _ hp⟩
    | none =>
      rw [step_fs_def]
      simp only [hfw]
      exact ⟨h1, h2⟩
  refine ⟨hfs.1, hfs.2, fun hT => ?_⟩
  rw [step_fsm_def] at hT
  cases hsf : s.fsm with
  | waitSof =>
    rw [step_mw_def, if_pos hsf]
    exact ⟨h1, h2⟩
  | transferPixels =>
    simp only [nextFsm, hsf] at hT
    have hcond : ¬ (i.valid = true ∧ i.sinkReady = true ∧ lastWord s) := by
      intro hc
      rw [if_pos hc] at hT
      exact absurd hT (by decide)
    have hmw := h3 hsf
    by_cases hcw : countWord s i
    · have hnl : s.mwordsRemaining ≠ 1 := by
        intro h1'
        exact hcond ⟨hcw.2.1, hcw.2.2, h1'⟩
      have heq : s.mwordsRemaining + (2 ^ aw - 1)
          = (s.mwordsRemaining - 1) + 2 ^ aw := by omega
      rw [step_mw_def, if_neg (by rw [hsf]; intro hh; cases hh), if_pos hcw,
        heq, Nat.add_mod_right, Nat.mod_eq_of_lt (by omega)]
      omega
    · rw [step_mw_def, if_neg (by rw [hsf]; intro hh; cases hh), if_neg hcw]
      exact hmw
  | eof =>
    simp only [nextFsm, hsf] at hT
    by_cases hdv : i.wdataValid = false
    · rw [if_pos hdv] at hT
      exact absurd hT (by decide)
    · rw [if_neg hdv] at hT
      exact absurd hT (by decide)

/-- C4 as amended: provided the configured frame size is nonzero (initially
and in every CPU write of `_frame_size`), the engine never commits a write
with `mwords_remaining = 0`, and at a committed word the transfer-complete
transition to `EOF` fires exactly when `mwords_remaining = 1` (`last_word`).
(The unamended claim fails when `_frame_size` is 0, see the counterexample.) -/
theorem C4_frame_size_is_hard_ceiling (aw : Nat) (s : DMAState)
    (ins : List Input)
    (h1 : 0 < s.frameSize) (h2 : s.frameSize < 2 ^ aw)
    (h3 : s.fsm = .transferPixels →
      0 < s.mwordsRemaining ∧ s.mwordsRemaining < 2 ^ aw)
    (hin : ∀ k, k < ins.length →
      0 < ((ins.getD k idleInput).frameSizeWrite.getD 1) % 2 ^ aw) :
    ∀ k, k < ins.length →
      countWord (run aw s (ins.take k)) (ins.getD k idleInput) →
      0 < (run aw s (ins.take k)).mwordsRemaining ∧
      ((run aw s (ins.take (k + 1))).fsm = .eof ↔
        (run aw s (ins.take k)).mwordsRemaining = 1) := by
  have inv : ∀ k, k ≤ ins.length →
      0 < (run aw s (ins.take k)).frameSize ∧
      (run aw s (ins.take k)).frameSize < 2 ^ aw ∧
      ((run aw s (ins.take k)).fsm = .transferPixels →
        0 < (run aw s (ins.take k)).mwordsRemaining ∧
        (run aw s (ins.take k)).mwordsRemaining < 2 ^ aw) := by
    intro k
    induction k with
    | zero =>
      intro _
      rw [List.take_zero]
      exact ⟨h1, h2, h3⟩
    | succ k ih =>
      intro hk1
      have hk : k < ins.length := by omega
      rw [run_take_succ aw s ins k hk]
      have I := ih (by omega)
      refine size_inv_step aw _ _ I.1 I.2.1 I.2.2 (fun v hv => ?_)
      have := hin k hk
      rw [hv] at this
      simpa using this
  intro k hk hcw
  have I := inv k (by omega)
  refine ⟨(I.2.2 hcw.1).1, ?_⟩
  rw [run_take_succ aw s ins k hk, step_fsm_def]
  simp only [nextFsm, hcw.1]
  constructor
  · intro he
    by_cases hl : lastWord (run aw s (ins.take k))
    · exact hl
    · rw [if_neg (fun hc => hl hc.2.2)] at he
      exact absurd he (by decide)
  · intro h1'
    rw [if_pos ⟨hcw.2.1, hcw.2.2, h1'⟩]

/-- C4 witness: an armed machine with frame size 4 commits its last word at
`mwords_remaining = 1` and transitions to `EOF` exactly then. -/
theorem C4_witness :
    0 < (run 16 c4Start (c4Inputs.take 4)).mwordsRemaining ∧
    ((run 16 c4Start (c4Inputs.take 5)).fsm = .eof ↔
      (run 16 c4Start (c4Inputs.take 4)).mwordsRemaining = 1) :=
  C4_frame_size_is_hard_ceiling 16 c4Start c4Inputs (by decide) (by decide)
    (by decide) (by decide) 4 (by decide) (by decide)

/-- C4 counterexample: with `_frame_size` left at 0, a transfer starts with
`mwords_remaining = 0` and the engine commits a write in that very state,
contradicting the claim that no write is ever committed at 0. -/
theorem C4_counterexample :
    countWord zeroSizeTransfer (dataWord 11) ∧
    zeroSizeTransfer.mwordsRemaining = 0 ∧
    writeIssued zeroSizeTransfer (dataWord 11) ≠ none := by decide

theorem transfer_writes (aw : Nat) :
    ∀ (ins : List Input) (s : DMAState),
      s.fsm = .transferPixels → 0 < s.mwordsRemaining →
      s.currentAddress + s.mwordsRemaining ≤ 2 ^ aw → completes aw s ins →
      (writesAlong aw s ins).map Prod.fst
          = List.range' s.currentAddress s.mwordsRemaining ∧
      (run aw s ins).currentAddress
          = (s.currentAddress + s.mwordsRemaining) % 2 ^ aw := by
  intro ins
  induction ins with
  | nil =>
    intro s hfsm _ _ hcomp
    have h := hcomp.1
    rw [show run aw s [] = s from rfl, hfsm] at h
    exact absurd h (by decide)
  | cons i rest ih =>
    intro s hfsm hm hwrap hcomp
    have hnw : ¬ s.fsm = .waitSof := by
      rw [hfsm]
      intro hh
      cases hh
    have hcompTail : completes aw (step aw s i) rest := by
      refine ⟨hcomp.1, fun k hk => ?_⟩
      exact hcomp.2 (k + 1) (Nat.succ_lt_succ hk)
    by_cases hcw : countWord s i
    · have hwrite : writeIssued s i = some (s.currentAddress, i.pixels) := by
        unfold writeIssued
        rw [if_pos hcw]
      by_cases hl : s.mwordsRemaining = 1
      · have hfsm' : (step aw s i).fsm = .eof := by
          rw [step_fsm_def]
          simp only [nextFsm, hfsm]
          rw [if_pos ⟨hcw.2.1, hcw.2.2, hl⟩]
        cases rest with
        | cons r rs =>
          have hpre := hcomp.2 1 (by simp)
          rw [show (i :: r :: rs).take 1 = [i] from rfl,
            show run aw s [i] = step aw s i from rfl, hfsm'] at hpre
          exact absurd hpre (by decide)
        | nil =>
          constructor
          · show ((writeIssued s i).toList ++ []).map Prod.fst = _
            rw [hwrite, hl]
            rfl
          · show (step aw s i).currentAddress = _
            rw [step_ca_def, if_neg hnw, if_pos hcw, hl]
      · have hm2 : 2 ≤ s.mwordsRemaining := by omega
        have hfsm' : (step aw s i).fsm = .transferPixels := by
          rw [step_fsm_def]
          simp only [nextFsm, hfsm]
          rw [if_neg (fun hc => hl hc.2.2)]
        have hca' : (step aw s i).currentAddress = s.currentAddress + 1 := by
          rw [step_ca_def, if_neg hnw, if_pos hcw,
            Nat.mod_eq_of_lt (by omega)]
        have hmw' : (step aw s i).mwordsRemaining = s.mwordsRemaining - 1 := by
          have hp : 0 < 2 ^ aw := pow_pos (by norm_num) aw
          have heq : s.mwordsRemaining + (2 ^ aw - 1)
              = (s.mwordsRemaining - 1) + 2 ^ aw := by omega
          rw [step_mw_def, if_neg hnw, if_pos hcw, heq, Nat.add_mod_right,
            Nat.mod_eq_of_lt (by omega)]
        have IH := ih (step aw s i) hfsm' (by rw [hmw']; omega)
          (by rw [hca', hmw']; omega) hcompTail
        constructor
        · show ((writeIssued s i).toList
              ++ writesAlong aw (step aw s i) rest).map Prod.fst = _
          rw [hwrite,
            show (some (s.currentAddress, i.pixels)).toList
              = [(s.currentAddress, i.pixels)] from rfl,
            List.singleton_append, List.map_cons, IH.1, hca', hmw']
          obtain ⟨m', hm'⟩ : ∃ m', s.mwordsRemaining = m' + 1 :=
            ⟨s.mwordsRemaining - 1, by omega⟩
          rw [hm', List.range'_succ]
          simp
        · show (run aw (step aw s i) rest).currentAddress = _
          rw [IH.2, hca', hmw']
          congr 1
          omega
    · have hval : ¬ (i.valid = true ∧ i.sinkReady = true) := by
        intro hc
        exact hcw ⟨hfsm, hc.1, hc.2⟩
      have hfsm' : (step aw s i).fsm = .transferPixels := by
        rw [step_fsm_def]
        simp only [nextFsm, hfsm]
        rw [if_neg (fun hc => hval ⟨hc.1, hc.2.1⟩)]
      have hca' : (step aw s i).currentAddress = s.currentAddress := by
        rw [step_ca_def, if_neg hnw, if_neg hcw]
      have hmw' : (step aw s i).mwordsRemaining = s.mwordsRemaining := by
        rw [step_mw_def, if_neg hnw, if_neg hcw]
      have hwrite : writeIssued s i = none := by
        unfold writeIssued
        rw [if_neg hcw]
      have IH := ih (step aw s i) hfsm' (by rw [hmw']; omega)
        (by rw [hca', hmw']; omega) hcompTail
      constructor
      · show ((writeIssued s i).toList
            ++ writesAlong aw (step aw s i) rest).map Prod.fst = _
        rw [hwrite, show (none : Option (Nat × Nat)).toList = [] from rfl,
          List.nil_append, IH.1, hca', hmw']
      · show (run aw (step aw s i) rest).currentAddress = _
        rw [IH.2, hca', hmw']

/-- C3 as amended: for every completed frame transfer started with base
address `base` and a nonzero configured `frame_word_count` `N` that fits the
address width (`base + N ≤ 2 ^ aw`), the sequence of addresses written is
exactly `base, base+1, ..., base+N-1` (no gaps, no repeats) and exactly `N`
words are written. (The unamended claim fails for `frame_word_count = 0`,
see the counterexample.) -/
theorem C3_writes_exact_range (aw N base : Nat) (s : DMAState) (i : Input)
    (ins : List Input)
    (hst : startCond s i) (hbase : arrayAddress s = base) (hN : s.frameSize = N)
    (hpos : 0 < N) (hwrap : base + N ≤ 2 ^ aw)
    (hcomp : completes aw (step aw s i) ins) :
    (writesAlong aw (step aw s i) ins).map Prod.fst = List.range' base N ∧
    (writesAlong aw (step aw s i) ins).length = N := by
  obtain ⟨hfsm, hav, hsof, hval⟩ := hst
  have hca : (step aw s i).currentAddress = base := by
    rw [step_ca_def, if_pos hfsm, hbase]
  have hmw : (step aw s i).mwordsRemaining = N := by
    rw [step_mw_def, if_pos hfsm, hN]
  have hfsm' : (step aw s i).fsm = .transferPixels := by
    rw [step_fsm_def]
    simp only [nextFsm, hfsm]
    rw [if_pos ⟨hav, hsof, hval⟩]
  have TW := transfer_writes aw ins (step aw s i) hfsm' (by rw [hmw]; omega)
    (by rw [hca, hmw]; omega) hcomp
  have h1 := TW.1
  rw [hca, hmw] at h1
  refine ⟨h1, ?_⟩
  have h2 := congrArg List.length h1
  simpa using h2

/-- C3 witness: the armed scenario machine transfers exactly the four
addresses 4096..4099. -/
theorem C3_witness :
    (writesAlong 16 (step 16 armedBase sofWordA) c7Inputs).map Prod.fst
        = List.range' 4096 4 ∧
    (writesAlong 16 (step 16 armedBase sofWordA) c7Inputs).length = 4 :=
  C3_writes_exact_range 16 4 4096 armedBase sofWordA c7Inputs (by decide)
    (by decide) (by decide) (by decide) (by decide) (by decide)

/-- C3 counterexample: with `_frame_size = 0` (2-bit addresses) a transfer
starts, completes after wrapping through all four word addresses, and the
completed frame wrote 4 words although the configured frame word count is 0:
the write count does not equal `frame_word_count`. -/
theorem C3_counterexample :
    tinyArmed.frameSize = 0 ∧ startCond tinyArmed sofWordA ∧
    completes 2 tinyTransfer fourCommits ∧
    (writesAlong 2 tinyTransfer fourCommits).length = 4 ∧
    (writesAlong 2 tinyTransfer fourCommits).length ≠ tinyArmed.frameSize := by
  decide

/-- C7 as amended: for a completed frame (nonzero frame word count `N`,
`base + N < 2 ^ aw`), the writes cover exactly `base..base+N-1`, and the
value published into the completing slot on `address_done` is `base + N`,
i.e. one past the last address actually written (not the last written
address itself). -/
theorem C7_published_one_past_last (aw N base : Nat) (s : DMAState) (i : Input)
    (ins : List Input) (j : Input)
    (hst : startCond s i) (hbase : arrayAddress s = base) (hN : s.frameSize = N)
    (hpos : 0 < N) (hwrap : base + N < 2 ^ aw)
    (hcomp : completes aw (step aw s i) ins)
    (hdr : j.wdataValid = false) (hnc : j.statusWrite = none)
    (hna : j.addressWrite = none)
    (hcur : (run aw (step aw s i) ins).currentSlot
      < (run aw (step aw s i) ins).slots.length) :
    (writesAlong aw (step aw s i) ins).map Prod.fst = List.range' base N ∧
    getSlot (step aw (run aw (step aw s i) ins) j).slots
        (run aw (step aw s i) ins).currentSlot
      = { status := 2, address := base + N } := by
  obtain ⟨hfsm, hav, hsof, hval⟩ := hst
  have hca : (step aw s i).currentAddress = base := by
    rw [step_ca_def, if_pos hfsm, hbase]
  have hmw : (step aw s i).mwordsRemaining = N := by
    rw [step_mw_def, if_pos hfsm, hN]
  have hfsm' : (step aw s i).fsm = .transferPixels := by
    rw [step_fsm_def]
    simp only [nextFsm, hfsm]
    rw [if_pos ⟨hav, hsof, hval⟩]
  have TW := transfer_writes aw ins (step aw s i) hfsm' (by rw [hmw]; omega)
    (by rw [hca, hmw]; omega) hcomp
  have h1 := TW.1
  rw [hca, hmw] at h1
  refine ⟨h1, ?_⟩
  have hfinca : (run aw (step aw s i) ins).currentAddress = base + N := by
    have h2 := TW.2
    rw [hca, hmw] at h2
    rw [h2, Nat.mod_eq_of_lt hwrap]
  have hpub := completion_update aw (run aw (step aw s i) ins) j hcomp.1 hdr
    hnc hna (run aw (step aw s i) ins).currentSlot hcur
  rw [if_pos rfl] at hpub
  rw [hpub]
  simp only [addressReached]
  rw [hfinca]

/-- C7 witness: the armed scenario machine, after its four-word transfer and
a drained completion cycle, publishes 4100 into slot 0. -/
theorem C7_witness :
    (writesAlong 16 (step 16 armedBase sofWordA) c7Inputs).map Prod.fst
        = List.range' 4096 4 ∧
    getSlot (step 16 (run 16 (step 16 armedBase sofWordA) c7Inputs)
        idleInput).slots
        (run 16 (step 16 armedBase sofWordA) c7Inputs).currentSlot
      = { status := 2, address := 4100 } :=
  C7_published_one_past_last 16 4 4096 armedBase sofWordA c7Inputs idleInput
    (by decide) (by decide) (by decide) (by decide) (by decide) (by decide)
    rfl rfl rfl (by decide)

/-- C7 counterexample: in the spec section 8 scenario (frame size 4, base
4096, words A..D) the writes land on 4096..4099, slot 0 goes Pending, but
the published value is 4100, not the last written address 4099. -/
theorem C7_counterexample :
    (writesAlong 16 (initState 3) scenarioInputs).map Prod.fst
        = [4096, 4097, 4098, 4099] ∧
    (getSlot scenarioFinal.slots 0).status = 2 ∧
    (getSlot scenarioFinal.slots 0).address = 4100 ∧
    (getSlot scenarioFinal.slots 0).address ≠ 4099 := by decide

/-- C9 counterexample: in the reset-to-completion scenario run the consumer
only ever writes slot 0's address CSR with 4096, yet after completion the
producer has overwritten that field with 4100: the target-address field is
mutated by both sides, contradicting the claim. -/
theorem C9_counterexample :
    (∀ k, k < scenarioInputs.length →
      (scenarioInputs.getD k idleInput).addressWrite = none ∨
      (scenarioInputs.getD k idleInput).addressWrite = some (0, 4096)) ∧
    (getSlot scenarioFinal.slots 0).address = 4100 ∧
    (getSlot scenarioFinal.slots 0).address ≠ 4096 := by decide

end LiteVideo
